import Mathlib

/-!
Verification of the Oculus-Data-Pipeline core against its natural-language
specification.  The Python sources (`xml_to_json.py`, `json_classification.py`,
`generate_uri.py`) are shallowly embedded below: pure Python functions become
Lean functions over `String`/`List Char`, Python dicts become association
lists with first-match lookup (insertion via `dinsert` preserves Python's
key-update-in-place semantics), and machine-level 32-bit arithmetic in the
SHA-256 digest is modelled on `Nat` with explicit reduction modulo 2^32.
Python's `str.lower` / `\s` are modelled on their ASCII fragment, which covers
every string handled by the pipeline's claims.
-/

namespace Oculus

/-! ## Character-level utilities shared by the pipeline scripts -/

/-- ASCII fragment of Python's `\s` character class (space, tab, newline,
carriage return, vertical tab, form feed), used by `re.sub(r'\s+', ...)`
and `str.strip()`. -/
def isWS (c : Char) : Bool :=
  c.toNat = 32 ∨ c.toNat = 9 ∨ c.toNat = 10 ∨ c.toNat = 13 ∨ c.toNat = 11 ∨ c.toNat = 12

/-- ASCII fragment of Python's `str.lower`: maps `A`–`Z` to `a`–`z` and leaves
every other character unchanged. -/
def pyLowerChar (c : Char) : Char :=
  if 65 ≤ c.toNat ∧ c.toNat ≤ 90 then Char.ofNat (c.toNat + 32) else c

/-- Python `s.lower()` on a whole string. -/
def pyLowerStr (s : String) : String :=
  String.mk (s.data.map pyLowerChar)

/-- Leading-whitespace removal, the front half of Python's `str.strip()`. -/
def trimL (l : List Char) : List Char :=
  l.dropWhile (fun c => isWS c)

/-- Trailing-whitespace removal, the back half of Python's `str.strip()`. -/
def trimTrail : List Char → List Char
  | [] => []
  | c :: rest =>
    let t := trimTrail rest
    if t = [] ∧ isWS c then [] else c :: t

/-- Python `str.strip()`: drop leading and trailing whitespace. -/
def pyStripChars (l : List Char) : List Char :=
  trimTrail (trimL l)

/-- Python `str.strip()` on `String`. -/
def pyStrip (s : String) : String :=
  String.mk (pyStripChars s.data)

/-- One pass of `re.sub(r'\s+', ' ', _)`: each maximal run of whitespace
becomes a single space.  The flag records whether the previous character
was part of a whitespace run. -/
def collapseAux : Bool → List Char → List Char
  | _, [] => []
  | prev, c :: rest =>
    if isWS c then
      if prev then collapseAux true rest else ' ' :: collapseAux true rest
    else c :: collapseAux false rest

/-- `re.sub(r'\s+', ' ', l)` over a character list. -/
def collapseChars (l : List Char) : List Char :=
  collapseAux false l

/-- Embedding of `normalize_term` (identical in `json_classification.py` and
`xml_to_json.py`): `re.sub(r'\s+', ' ', term).strip().lower()`. -/
def normalize_term (term : String) : String :=
  String.mk ((pyStripChars (collapseChars term.data)).map pyLowerChar)

/-! ## Word decomposition used to reason about the Term Normalizer -/

/-- Fuelled decomposition of a character list into its maximal whitespace-free
runs; the fuel is the input length, ample since every step consumes at least
one character. -/
def wordsOfF : Nat → List Char → List (List Char)
  | _, [] => []
  | 0, l => [l]
  | fuel + 1, c :: rest =>
    if isWS c then wordsOfF fuel rest
    else (c :: rest).takeWhile (fun d => !isWS d) ::
      wordsOfF fuel ((c :: rest).dropWhile (fun d => !isWS d))

/-- The maximal whitespace-free words of a character list, in order. -/
def wordsOf (l : List Char) : List (List Char) :=
  wordsOfF l.length l

/-- Join words with single spaces: the canonical fully-normalized shape. -/
def unwords : List (List Char) → List Char
  | [] => []
  | [w] => w
  | w :: ws => w ++ ' ' :: unwords ws

/-- The case-folded word decomposition of a string.  "x and y differ only in
whitespace (runs, leading/trailing) and letter case" is formalized as
`wordsLower x = wordsLower y`. -/
def wordsLower (s : String) : List (List Char) :=
  (wordsOf s.data).map (fun w => w.map pyLowerChar)

/-! ## SHA-256 (hashlib.sha256), modelled on `Nat` with reduction mod 2^32 -/

/-- Reduce to a 32-bit word. -/
def wmask (x : Nat) : Nat := x % 4294967296

/-- 32-bit right rotation. -/
def rotr (n x : Nat) : Nat := wmask ((x >>> n) ||| (x <<< (32 - n)))

/-- The 64 SHA-256 round constants (decimal). -/
def shaK : List Nat :=
  [1116352408, 1899447441, 3049323471, 3921009573, 961987163, 1508970993,
   2453635748, 2870763221, 3624381080, 310598401, 607225278, 1426881987,
   1925078388, 2162078206, 2614888103, 3248222580, 3835390401, 4022224774,
   264347078, 604807628, 770255983, 1249150122, 1555081692, 1996064986,
   2554220882, 2821834349, 2952996808, 3210313671, 3336571891, 3584528711,
   113926993, 338241895, 666307205, 773529912, 1294757372, 1396182291,
   1695183700, 1986661051, 2177026350, 2456956037, 2730485921, 2820302411,
   3259730800, 3345764771, 3516065817, 3600352804, 4094571909, 275423344,
   430227734, 506948616, 659060556, 883997877, 958139571, 1322822218,
   1537002063, 1747873779, 1955562222, 2024104815, 2227730452, 2361852424,
   2428436474, 2756734187, 3204031479, 3329325298]

/-- The SHA-256 initial hash state (decimal). -/
def shaH0 : List Nat :=
  [1779033703, 3144134277, 1013904242, 2773480762,
   1359893119, 2600822924, 528734635, 1541459225]

/-- Big-endian 64-bit length field of the SHA-256 padding. -/
def be64 (n : Nat) : List Nat :=
  [(n >>> 56) % 256, (n >>> 48) % 256, (n >>> 40) % 256, (n >>> 32) % 256,
   (n >>> 24) % 256, (n >>> 16) % 256, (n >>> 8) % 256, n % 256]

/-- SHA-256 message padding: append `0x80`, zero-fill to 56 mod 64 bytes, then
the message bit length as a big-endian 64-bit integer. -/
def shaPad (msg : List Nat) : List Nat :=
  msg ++ 0x80 :: List.replicate ((119 - msg.length % 64) % 64) 0 ++ be64 (8 * msg.length)

/-- Pack big-endian byte quadruples into 32-bit words. -/
def bytesToWords : List Nat → List Nat
  | a :: b :: c :: d :: rest => (a * 16777216 + b * 65536 + c * 256 + d) :: bytesToWords rest
  | _ => []

/-- Split a word list into 16-word blocks (the input length is a multiple of
16 after padding). -/
def wordsToBlocks : List Nat → List (List Nat)
  | w0 :: w1 :: w2 :: w3 :: w4 :: w5 :: w6 :: w7 ::
    w8 :: w9 :: w10 :: w11 :: w12 :: w13 :: w14 :: w15 :: rest =>
      [w0, w1, w2, w3, w4, w5, w6, w7, w8, w9, w10, w11, w12, w13, w14, w15] :: wordsToBlocks rest
  | _ => []

/-- SHA-256 small sigma 0. -/
def ssig0 (x : Nat) : Nat := rotr 7 x ^^^ rotr 18 x ^^^ (x >>> 3)

/-- SHA-256 small sigma 1. -/
def ssig1 (x : Nat) : Nat := rotr 17 x ^^^ rotr 19 x ^^^ (x >>> 10)

/-- One step of the message-schedule extension: append word `w_t` computed
from the four reference positions behind the current end. -/
def schedStep (ws : List Nat) : List Nat :=
  ws ++ [wmask (ssig1 (ws.getD (ws.length - 2) 0) + ws.getD (ws.length - 7) 0 +
                ssig0 (ws.getD (ws.length - 15) 0) + ws.getD (ws.length - 16) 0)]

/-- Extend a 16-word block to the 64-word message schedule. -/
def sched (block : List Nat) : List Nat :=
  (List.range 48).foldl (fun ws _ => schedStep ws) block

/-- One SHA-256 compression round on the 8-word working state. -/
def shaRound (st : List Nat) (w k : Nat) : List Nat :=
  match st with
  | [a, b, c, d, e, f, g, h] =>
    let s1 := rotr 6 e ^^^ rotr 11 e ^^^ rotr 25 e
    let ch := (e &&& f) ^^^ ((e ^^^ 0xffffffff) &&& g)
    let temp1 := wmask (h + s1 + ch + k + w)
    let s0 := rotr 2 a ^^^ rotr 13 a ^^^ rotr 22 a
    let maj := (a &&& b) ^^^ (a &&& c) ^^^ (b &&& c)
    let temp2 := wmask (s0 + maj)
    [wmask (temp1 + temp2), a, b, c, wmask (d + temp1), e, f, g]
  | other => other

/-- SHA-256 compression of one 16-word block into the running hash state. -/
def shaCompress (h : List Nat) (block : List Nat) : List Nat :=
  let ws := sched block
  let st := (ws.zip shaK).foldl (fun st p => shaRound st p.1 p.2) h
  (h.zip st).map (fun p => wmask (p.1 + p.2))

/-- SHA-256 of a byte list: the final eight 32-bit hash words. -/
def sha256Words (msg : List Nat) : List Nat :=
  (wordsToBlocks (bytesToWords (shaPad msg))).foldl shaCompress shaH0

/-- Lowercase hexadecimal digit for a value below 16. -/
def hexDigit (n : Nat) : Char :=
  if n < 10 then Char.ofNat (48 + n) else Char.ofNat (87 + n)

/-- Eight-hex-digit big-endian rendering of a 32-bit word. -/
def wordToHex (w : Nat) : List Char :=
  [hexDigit ((w >>> 28) &&& 15), hexDigit ((w >>> 24) &&& 15),
   hexDigit ((w >>> 20) &&& 15), hexDigit ((w >>> 16) &&& 15),
   hexDigit ((w >>> 12) &&& 15), hexDigit ((w >>> 8) &&& 15),
   hexDigit ((w >>> 4) &&& 15), hexDigit (w &&& 15)]

/-- `hashlib.sha256(_).hexdigest()` over a byte list. -/
def sha256Hex (msg : List Nat) : List Char :=
  ((sha256Words msg).map wordToHex).flatten

/-- UTF-8 encoding of one character (`str.encode('utf-8')`). -/
def utf8Char (c : Char) : List Nat :=
  let n := c.toNat
  if n < 0x80 then [n]
  else if n < 0x800 then [0xc0 ||| (n >>> 6), 0x80 ||| (n &&& 63)]
  else if n < 0x10000 then
    [0xe0 ||| (n >>> 12), 0x80 ||| ((n >>> 6) &&& 63), 0x80 ||| (n &&& 63)]
  else
    [0xf0 ||| (n >>> 18), 0x80 ||| ((n >>> 12) &&& 63),
     0x80 ||| ((n >>> 6) &&& 63), 0x80 ||| (n &&& 63)]

/-- `str.encode('utf-8')` over a whole string. -/
def utf8Bytes (s : String) : List Nat :=
  (s.data.map utf8Char).flatten

/-- Value of a lowercase hexadecimal digit character. -/
def hexVal (c : Char) : Nat :=
  if c.toNat ≥ 97 then c.toNat - 87 else c.toNat - 48

/-- `int(h, 16)` for a hexadecimal character list. -/
def hexToNat (l : List Char) : Nat :=
  l.foldl (fun acc c => 16 * acc + hexVal c) 0

/-- Python `str.replace(old, '')` specialised to deleting one character:
`input_string.replace(' ', '')` / `.replace(',', '')`. -/
def removeAllChar (c : Char) (s : String) : String :=
  String.mk (s.data.filter (fun d => d ≠ c))

/-- The preprocessing step of `generate_uri`:
`input_string.lower().replace(' ', '').replace(',', '')`. -/
def uriKey (input_string : String) : String :=
  removeAllChar ',' (removeAllChar ' ' (pyLowerStr input_string))

/-- Embedding of `generate_uri` (identical in `generate_uri.py` and
`xml_to_json.py`): lowercase, delete spaces and commas, SHA-256 hex digest,
first 8 hex characters as a base-16 integer, reduced mod 100000000, prefixed
with `r`. -/
def generate_uri (input_string : String) : String :=
  let s := uriKey input_string
  let hex_digest := sha256Hex (utf8Bytes s)
  "r" ++ toString (hexToNat (hex_digest.take 8) % 100000000)

/-! ## Python string primitives: `in`, `split`, `replace` -/

/-- Python `c in s` for a single character. -/
def containsChar (s : String) (c : Char) : Bool :=
  s.data.contains c

/-- Helper for the substring test: does the needle occur at any position? -/
def isSubAux (needle : List Char) : List Char → Bool
  | [] => needle.isPrefixOf []
  | c :: rest => needle.isPrefixOf (c :: rest) || isSubAux needle rest

/-- Python `needle in hay` substring test. -/
def pyIn (needle hay : String) : Bool :=
  isSubAux needle.data hay.data

/-- Fuelled character-level worker for Python `str.split(sep)` with non-empty
separator `s0 :: srest`: split on each non-overlapping occurrence, scanning
left to right.  The fuel is the input length, ample since every step consumes
at least one character. -/
def splitCharsF (s0 : Char) (srest : List Char) : Nat → List Char → List (List Char)
  | _, [] => [[]]
  | 0, l => [l]
  | fuel + 1, c :: rest =>
    if (s0 :: srest).isPrefixOf (c :: rest) then
      [] :: splitCharsF s0 srest fuel (rest.drop srest.length)
    else
      match splitCharsF s0 srest fuel rest with
      | [] => [[c]]
      | p :: ps => (c :: p) :: ps

/-- Python `s.split(sep)`; the pipeline only calls it with the non-empty
separator `", "`. -/
def pySplit (s sep : String) : List String :=
  match sep.data with
  | [] => [s]
  | c :: cs => (splitCharsF c cs s.data.length s.data).map String.mk

/-- Fuelled character-level worker for Python `str.replace(old, new)` with
non-empty pattern `p0 :: prest`: replace each non-overlapping occurrence,
scanning left to right. -/
def replaceCharsF (p0 : Char) (prest rep : List Char) : Nat → List Char → List Char
  | _, [] => []
  | 0, l => l
  | fuel + 1, c :: rest =>
    if (p0 :: prest).isPrefixOf (c :: rest) then
      rep ++ replaceCharsF p0 prest rep fuel (rest.drop prest.length)
    else c :: replaceCharsF p0 prest rep fuel rest

/-- Python `s.replace(old, new)`; the pipeline only calls it with non-empty
`old` (the title keywords). -/
def pyReplace (s old new : String) : String :=
  match old.data with
  | [] => s
  | c :: cs => String.mk (replaceCharsF c cs new.data s.data.length s.data)

/-! ## Name conversion (`convert_name`, both variants) -/

/-- The fixed title keyword set of `json_classification.convert_name`. -/
def title_keywords : List String :=
  ["Baron", "Sir", "Dr.", "Lord", "Dame", "Count", "Countess", "King", "Queen",
   "Prince", "Princess", "Duke", "Duchess", "marquis", "marchioness", "von", "de"]

/-- The title-extraction loop of `json_classification.convert_name`: for each
keyword occurring as a substring of the first-name part, append it to the
title list and delete every occurrence (Python `str.replace`), stripping the
remainder. -/
def stripTitles (first0 : String) : List String × String :=
  title_keywords.foldl
    (fun acc kw =>
      if pyIn kw acc.2 then (acc.1 ++ [kw], pyStrip (pyReplace acc.2 kw ""))
      else acc)
    ([], first0)

/-- Embedding of `json_classification.convert_name`: on a `"Last, First"`
split into exactly two parts, extract title keywords and rebuild the name;
note the literal `" de "` inserted between first and last name whenever a
title was found.  Any other shape is returned unchanged. -/
def convert_name (name : String) : String :=
  if containsChar name ',' then
    match pySplit name ", " with
    | [last_name, first0] =>
      let p := stripTitles first0
      let title_str := String.intercalate " " p.1
      if title_str ≠ "" then title_str ++ " " ++ p.2 ++ " de " ++ last_name
      else p.2 ++ " " ++ last_name
    | _ => name
  else name

/-- Embedding of `xml_to_json.convert_name`: `"Last, First"` becomes
`"First Last"`, any other shape is returned unchanged (no title handling). -/
def convert_name_x (name : String) : String :=
  if containsChar name ',' then
    match pySplit name ", " with
    | [last_name, first_name] => first_name ++ " " ++ last_name
    | _ => name
  else name

/-! ## Dict model: association lists with Python dict semantics -/

/-- Python `d.get(k)` / `k in d` on an association list. -/
def lookupM (m : List (String × String)) (k : String) : Option String :=
  (m.find? (fun p => p.1 == k)).map (fun p => p.2)

/-- Python `d[k] = v`: update in place when the key exists, else append. -/
def dinsert (m : List (String × String)) (k v : String) : List (String × String) :=
  if (m.find? (fun p => p.1 == k)).isSome then
    m.map (fun p => if p.1 == k then (k, v) else p)
  else m ++ [(k, v)]

/-! ## Document model and the Document Assembler (`update_json`) -/

/-- A flat `{'term': ..., 'type': ...}` object built by `create_term_obj`. -/
structure FlatTerm where
  term : String
  ty : String
deriving DecidableEq, Repr

/-- A JSON value sitting under the `main`/`midsub`/`sub` key of an indexing
entry: either a plain string (ingestion shape) or a term object dict
(assembler output shape).  `update_json` accepts both via its
`isinstance(_, dict)` check. -/
inductive TermVal where
  | s (v : String)
  | d (t : FlatTerm)
deriving DecidableEq, Repr

/-- An entry of `document['indexing']` as a partial map over the keys the
assembler reads (`main`, `midsub`, `sub`) and writes (`term`, `type`,
`midsub`, `sub`); an absent key is `none`. -/
structure IxEntry where
  main : Option TermVal := none
  midsub : Option TermVal := none
  sub : Option TermVal := none
  term : Option String := none
  ty : Option String := none
deriving DecidableEq, Repr

/-- A fully built main term object with optional nested midsub/sub. -/
structure TermObj where
  term : String
  ty : String
  midsub : Option FlatTerm := none
  sub : Option FlatTerm := none
deriving DecidableEq, Repr

/-- The fields of a document touched by `update_json`: author and recipient
names and the indexing list (all other fields pass through unchanged). -/
structure JDoc where
  authors : List String := []
  recipients : List String := []
  indexing : List IxEntry := []
deriving DecidableEq, Repr

/-- `term.get('main', "")` followed by
`main_term['term'] if isinstance(main_term, dict) else main_term`. -/
def getTermStr : Option TermVal → String
  | none => ""
  | some (.s v) => v
  | some (.d t) => t.term

/-- Embedding of `json_classification.create_term_obj`: convert the name when
the label is exactly `person`, and lowercase the label into `type`. -/
def create_term_obj (term label : String) : FlatTerm :=
  { term := if label == "person" then convert_name term else term,
    ty := pyLowerStr label }

/-- The main-label assignment of `json_classification.update_json`: the
known-entity registry is consulted first, then the matched classification
dict, then the `'TERM'` default. -/
def resolveMainLabel (known_entities matched_data : List (String × String))
    (s : String) : String :=
  match lookupM known_entities (normalize_term s) with
  | some k => k
  | none => (lookupM matched_data (normalize_term s)).getD "TERM"

/-- The midsub/sub-label assignment of `json_classification.update_json`: the
matched classification dict with default `'TERM'` — the known-entity registry
is not consulted — and `'TERM'` outright for an empty term string. -/
def resolveSubLabel (matched_data : List (String × String)) (s : String) : String :=
  if s ≠ "" then (lookupM matched_data (normalize_term s)).getD "TERM" else "TERM"

/-- The per-entry body of `json_classification.update_json`: resolve the main
label through the known-entity registry first (falling back to the matched
classification dict with default `TERM`), but resolve midsub and sub labels
through the matched dict only. -/
def updateEntry (known_entities matched_data : List (String × String)) (e : IxEntry) : TermObj :=
  let main_term_str := getTermStr e.main
  let midsub_term_str := getTermStr e.midsub
  let sub_term_str := getTermStr e.sub
  { term := (create_term_obj main_term_str (resolveMainLabel known_entities matched_data main_term_str)).term,
    ty := (create_term_obj main_term_str (resolveMainLabel known_entities matched_data main_term_str)).ty,
    midsub :=
      if midsub_term_str ≠ "" then
        some (create_term_obj midsub_term_str (resolveSubLabel matched_data midsub_term_str))
      else none,
    sub :=
      if sub_term_str ≠ "" then
        some (create_term_obj sub_term_str (resolveSubLabel matched_data sub_term_str))
      else none }

/-- The JSON dict written back into `document['indexing']` by `update_json`:
keys `term` and `type` (plus nested `midsub`/`sub` dicts); no `main` key. -/
def termObjToEntry (o : TermObj) : IxEntry :=
  { main := none, midsub := o.midsub.map TermVal.d, sub := o.sub.map TermVal.d,
    term := some o.term, ty := some o.ty }

/-- The per-document body of `json_classification.update_json`: convert author
and recipient names in place and rebuild the indexing list. -/
def updateDoc (ke md : List (String × String)) (d : JDoc) : JDoc :=
  { authors := d.authors.map convert_name,
    recipients := d.recipients.map convert_name,
    indexing := d.indexing.map (fun e => termObjToEntry (updateEntry ke md e)) }

/-- Embedding of `json_classification.update_json` over the document list. -/
def update_json (ke md : List (String × String)) (docs : List JDoc) : List JDoc :=
  docs.map (updateDoc ke md)

/-! ## Classification batching and response matching -/

/-- The task-accumulation loop of `json_classification.classify_terms`: skip
terms whose normalized form is a known entity; every other term becomes a
task `("task-<index>", term)` with the index taken from the original
enumeration. -/
def buildTasks (known_entities : List (String × String)) (terms : List String) :
    List (String × String) :=
  (terms.enum.filter (fun p => (lookupM known_entities (normalize_term p.2)).isNone)).map
    (fun p => ("task-" ++ toString p.1, p.2))

/-- One row of the matched input/output data of
`json_classification.classify_terms`. -/
structure Matched where
  custom_id : String
  content : String
  classification : String
deriving DecidableEq, Repr

/-- The response-matching step of `json_classification.classify_terms`: for
every submitted task id, pair the submitted content with the response
classification, defaulting both to the literal `"Unknown"` on a missing
entry. -/
def buildMatched (input output : List (String × String)) : List Matched :=
  input.map (fun p =>
    { custom_id := p.1,
      content := (lookupM input p.1).getD "Unknown",
      classification := (lookupM output p.1).getD "Unknown" })

/-- The `term_to_label_dict` comprehension of `json_classification.__main__`:
normalized content mapped to the lowercased classification (later duplicates
overwrite earlier ones, as in a Python dict comprehension). -/
def toLabelDict (matched : List Matched) : List (String × String) :=
  matched.foldl
    (fun d m => dinsert d (normalize_term m.content) (pyLowerStr m.classification)) []

/-! ## The `xml_to_json` second-pass label resolution -/

/-- Python `a or b` where `a` is an optional string and `b` a string. -/
def pyOrStr (a : Option String) (b : String) : String :=
  match a with
  | some s => if s ≠ "" then s else b
  | none => b

/-- A term node of the output shape: `term`, `type`, optional `uri`. -/
structure TermNode where
  term : String
  ty : String
  uri : Option String := none
deriving DecidableEq, Repr

/-- The four-way type vocabulary of the spec's invariant. -/
def typeVocab : List String := ["person", "place", "organization", "term"]

/-- The main-label resolution of `xml_to_json.parse_xml_to_json` second pass:
`known_entities.get(normalize_term(t)) or term_to_label.get(t, 'TERM')`. -/
def xmlMainLabel (known_entities term_to_label : List (String × String))
    (main_term : String) : String :=
  pyOrStr (lookupM known_entities (normalize_term main_term))
          ((lookupM term_to_label main_term).getD "TERM")

/-- The main term-object construction of `xml_to_json.parse_xml_to_json`:
PERSON/GPE/ORG receive a lowercased type and a generated URI, everything else
becomes a plain `term` node without a URI. -/
def xmlMainObj (known_entities term_to_label : List (String × String))
    (main_term : String) : TermNode :=
  let lbl := xmlMainLabel known_entities term_to_label main_term
  if lbl == "PERSON" then
    { term := convert_name_x main_term, uri := some (generate_uri main_term), ty := "person" }
  else if lbl == "GPE" then
    { term := main_term, uri := some (generate_uri main_term), ty := "place" }
  else if lbl == "ORG" then
    { term := main_term, uri := some (generate_uri main_term), ty := "organization" }
  else
    { term := main_term, ty := "term", uri := none }

/-! ## URI attachment (`generate_uri.add_uri_if_needed`) -/

/-- Embedding of the `add_uri_if_needed` helper of `generate_uri.py`: attach a
generated URI exactly when the node's type is not `term`.  (The external VIAF
enrichment performed on the same branch is an out-of-scope HTTP call writing
separate `viaf`/`lc` keys.) -/
def add_uri_if_needed (term_obj : TermNode) : TermNode :=
  if term_obj.ty ≠ "term" then
    { term_obj with uri := some (generate_uri term_obj.term) }
  else term_obj

/-! ## Ingestion dedup (`xml_to_json.collect_terms_from_xml`) -/

/-- Scan for the first `')'` of a parenthetical match; `re`'s `.` does not
cross a newline, and an unclosed `'('` does not match. -/
def scanCloseParen : List Char → Option (List Char)
  | [] => none
  | c :: rest =>
    if c = ')' then some rest
    else if c = '\n' then none
    else scanCloseParen rest

/-- Fuelled worker for `re.sub(r'\(.*?\)', '', _)`: remove each non-greedy
parenthetical match, scanning left to right; the fuel is the input length,
ample since every step consumes at least one character. -/
def stripParensF : Nat → List Char → List Char
  | _, [] => []
  | 0, l => l
  | fuel + 1, c :: rest =>
    if c = '(' then
      match scanCloseParen rest with
      | some rem => stripParensF fuel rem
      | none => c :: stripParensF fuel rest
    else c :: stripParensF fuel rest

/-- `re.sub(r'\(.*?\)', '', s)`. -/
def stripParens (s : String) : String :=
  String.mk (stripParensF s.data.length s.data)

/-- The per-triple cleaning of `collect_terms_from_xml`: strip parentheticals
then trim, with midsub/sub cleaned only when truthy (the empty string is
returned as is, which coincides with cleaning it). -/
def stripTriple (t : String × String × String) : String × String × String :=
  (pyStrip (stripParens t.1),
   if t.2.1 ≠ "" then pyStrip (stripParens t.2.1) else "",
   if t.2.2 ≠ "" then pyStrip (stripParens t.2.2) else "")

/-- The dedup loop of `collect_terms_from_xml`: keep a cleaned triple only
when it was not seen before, in input order. -/
def collectAux (seen : List (String × String × String)) :
    List (String × String × String) → List (String × String × String)
  | [] => []
  | t :: rest =>
    let t' := stripTriple t
    if t' ∈ seen then collectAux seen rest
    else t' :: collectAux (t' :: seen) rest

/-- Embedding of `xml_to_json.collect_terms_from_xml` on the list of raw
(main, midsub, sub) text triples of one document. -/
def collect_terms_from_xml (l : List (String × String × String)) :
    List (String × String × String) :=
  collectAux [] l

/-- Reference first-occurrence dedup: keep the head and drop every later
equal element.  Used as the independent specification `collect_terms_from_xml`
is proved against. -/
def dedupFirst : List (String × String × String) → List (String × String × String)
  | [] => []
  | t :: rest => t :: dedupFirst (rest.filter (fun x => decide (x ≠ t)))
termination_by l => l.length
decreasing_by
  simp only [List.length_cons]
  exact Nat.lt_succ_of_le (List.length_filter_le _ _)

/-! ## VIAF candidate selection (`generate_uri.process_viaf_response`) -/

/-- One record of the VIAF AutoSuggest response, with the fields the code
reads; an absent key is `none`. -/
structure ViafRecord where
  viafid : Option String := none
  term : Option String := none
  lcid : Option String := none
  lc : Option String := none
  dates : Option String := none
deriving DecidableEq, Repr

/-- A candidate assembled by `process_viaf_response`. -/
structure Candidate where
  viaf : Option String := none
  lc : Option String := none
  name : Option String := none
  year : Option String := none
deriving DecidableEq, Repr

/-- Python truthiness of an optional string: present and non-empty. -/
def truthyO : Option String → Bool
  | none => false
  | some s => s ≠ ""

/-- Python `a or b` on optional strings. -/
def pyOrOpt (a b : Option String) : Option String :=
  if truthyO a then a else b

/-- The candidate dict built per record:
`{'viaf': viafid, 'lc': lcid or lc, 'name': term, 'year': dates}`. -/
def mkCandidate (r : ViafRecord) : Candidate :=
  { viaf := r.viafid, lc := pyOrOpt r.lcid r.lc, name := r.term, year := r.dates }

/-- The date filter of `process_viaf_response`: a record is skipped exactly
when both the document date and the record year are truthy and the date does
not occur in the year string as a substring. -/
def keepRecord (document_date : Option String) (r : ViafRecord) : Bool :=
  !(truthyO document_date && truthyO r.dates &&
    !(pyIn (document_date.getD "") (r.dates.getD "")))

/-- Python string `<`: lexicographic comparison by code point. -/
def strLtB : List Char → List Char → Bool
  | _, [] => false
  | [], _ :: _ => true
  | a :: as, b :: bs =>
    if a.toNat < b.toNat then true
    else if b.toNat < a.toNat then false
    else strLtB as bs

/-- The sort key order of `sorted(candidates, key=lambda x: x['year'] ...)`
on homogeneous key lists: present years compare lexicographically as Python
strings, and two missing years (`float('inf')` vs `float('inf')`) compare as
not-less.  Python raises an uncaught `TypeError` as soon as a string key is
compared with `float('inf')`, so a key list mixing missing and present years
never reaches defined selection behavior; `process_viaf_response` models that
crash as an error before sorting (`mixedYearKeys`), which makes the two
cross-constructor cases below unreachable on the defined path (they carry an
arbitrary missing-last value). -/
def yearLt : Option String → Option String → Bool
  | some a, some b => strLtB a.data b.data
  | some _, none => true
  | none, _ => false

/-- A key list mixing present and missing years.  Python's sort compares
every adjacent key pair while detecting runs, so whenever both a string key
and `float('inf')` are present some cross-type comparison happens and an
uncaught `TypeError` is raised. -/
def mixedYearKeys (cands : List Candidate) : Bool :=
  cands.any (fun c => c.year.isNone) && cands.any (fun c => c.year.isSome)

/-- Stable insertion of a candidate into a year-sorted list: a new element
goes after every element it is not strictly below, as in Python's stable
`sorted`. -/
def insertCand (x : Candidate) : List Candidate → List Candidate
  | [] => [x]
  | y :: ys => if yearLt x.year y.year then x :: y :: ys else y :: insertCand x ys

/-- Stable sort of the candidate list by year key (left fold of stable
insertions, so equal keys keep their original order). -/
def sortCands (l : List Candidate) : List Candidate :=
  l.foldl (fun acc x => insertCand x acc) []

/-- Embedding of `generate_uri.process_viaf_response`: on a non-empty result
list, filter by the date substring test, sort the surviving candidates by
year and return the first; otherwise `None`.  When the surviving candidates
mix missing and present years, Python's `sorted` raises an uncaught
`TypeError` (string vs `float('inf')`; only `RequestException` is handled
upstream), modelled here as `Except.error "TypeError"`. -/
def process_viaf_response (response : Option (List ViafRecord))
    (document_date : Option String) : Except String (Option Candidate) :=
  match response with
  | none => Except.ok none
  | some records =>
    if records = [] then Except.ok none
    else
      let candidates := (records.filter (keepRecord document_date)).map mkCandidate
      if mixedYearKeys candidates then Except.error "TypeError"
      else
        match sortCands candidates with
        | [] => Except.ok none
        | c :: _ => Except.ok (some c)

/-! ## Helper lemmas -/

/-- A successful dict lookup returns the value of some stored pair. -/
theorem lookupM_mem {m : List (String × String)} {k v : String}
    (h : lookupM m k = some v) : ∃ p ∈ m, p.2 = v := by
  unfold lookupM at h
  cases hf : List.find? (fun p => p.1 == k) m with
  | none => rw [hf] at h; cases h
  | some p =>
    rw [hf] at h
    simp only [Option.map_some'] at h
    injection h with h
    exact ⟨p, List.mem_of_find?_eq_some hf, h⟩

/-- The main label is a registry value, a matched-dict value, or `TERM`. -/
theorem resolveMainLabel_cases (ke md : List (String × String)) (s : String) :
    (∃ p ∈ ke, p.2 = resolveMainLabel ke md s) ∨
    (∃ p ∈ md, p.2 = resolveMainLabel ke md s) ∨
    resolveMainLabel ke md s = "TERM" := by
  unfold resolveMainLabel
  cases hke : lookupM ke (normalize_term s) with
  | some k => exact Or.inl (by simpa using lookupM_mem hke)
  | none =>
    cases hmd : lookupM md (normalize_term s) with
    | some v => exact Or.inr (Or.inl (by simpa using lookupM_mem hmd))
    | none => exact Or.inr (Or.inr rfl)

/-- The midsub/sub label is a matched-dict value or `TERM`. -/
theorem resolveSubLabel_cases (md : List (String × String)) (s : String) :
    (∃ p ∈ md, p.2 = resolveSubLabel md s) ∨ resolveSubLabel md s = "TERM" := by
  unfold resolveSubLabel
  by_cases hs : s ≠ ""
  · rw [if_pos hs]
    cases hmd : lookupM md (normalize_term s) with
    | some v => exact Or.inl (by simpa using lookupM_mem hmd)
    | none => exact Or.inr rfl
  · rw [if_neg hs]
    exact Or.inr rfl

/-! ## Claim theorems -/

/-- C1 (confirmed).  The URI assigner is a deterministic pure function of the
lowercased, space- and comma-stripped name: any two inputs with the same
normal form — in particular inputs differing only in case, spaces, and
commas — receive the same identifier, and `"Thomas Jefferson, "` collides
with `"thomas jefferson"` as the spec demands. -/
theorem claim1_uri_assigner_deterministic :
    (∀ x y : String, uriKey x = uriKey y → generate_uri x = generate_uri y) ∧
    generate_uri "Thomas Jefferson, " = generate_uri "thomas jefferson" := by
  have hcong : ∀ x y : String, uriKey x = uriKey y → generate_uri x = generate_uri y := by
    intro x y h
    unfold generate_uri
    rw [h]
  exact ⟨hcong, hcong _ _ (by decide)⟩

/-- Witness for C1 at the spec's own example strings. -/
theorem claim1_uri_assigner_deterministic_witness :
    uriKey "Thomas Jefferson, " = uriKey "thomas jefferson" ∧
    generate_uri "Thomas Jefferson, " = generate_uri "thomas jefferson" :=
  ⟨by decide,
   claim1_uri_assigner_deterministic.1 "Thomas Jefferson, " "thomas jefferson" (by decide)⟩

/-- C5 (code bug).  `convert_name` handles the no-title case as documented
(`"Jefferson, Thomas"` becomes `"Thomas Jefferson"`), but whenever a title
keyword is found it inserts the literal `" de "` between the first and last
name, contradicting its own `'Title First Last'` docstring:
`"Byron, Lord George"` becomes `"Lord George de Byron"`. -/
theorem claim5_convert_name_title_insertion :
    convert_name "Jefferson, Thomas" = "Thomas Jefferson" ∧
    convert_name "Byron, Lord George" = "Lord George de Byron" ∧
    convert_name "Byron, Lord George" ≠ "Lord George Byron" :=
  ⟨by decide, by decide, by decide⟩

/-- C10 (confirmed).  A name without a comma, or whose split on `", "` does
not have exactly two parts, is returned unchanged by both `convert_name`
variants. -/
theorem claim10_convert_name_passthrough :
    ∀ name : String,
      containsChar name ',' = false ∨ (pySplit name ", ").length ≠ 2 →
      convert_name name = name ∧ convert_name_x name = name := by
  intro name h
  have h2 : containsChar name ',' = true → (pySplit name ", ").length ≠ 2 := by
    intro hc
    rcases h with h | h
    · rw [hc] at h; cases h
    · exact h
  constructor
  · unfold convert_name
    cases hc : containsChar name ',' with
    | false => simp
    | true =>
      have hl := h2 hc
      simp only [hc, if_true]
      generalize hs : pySplit name ", " = l
      rw [hs] at hl
      rcases l with _ | ⟨a, _ | ⟨b, _ | ⟨c, tl⟩⟩⟩
      · rfl
      · rfl
      · simp at hl
      · rfl
  · unfold convert_name_x
    cases hc : containsChar name ',' with
    | false => simp
    | true =>
      have hl := h2 hc
      simp only [hc, if_true]
      generalize hs : pySplit name ", " = l
      rw [hs] at hl
      rcases l with _ | ⟨a, _ | ⟨b, _ | ⟨c, tl⟩⟩⟩
      · rfl
      · rfl
      · simp at hl
      · rfl

/-- Witness for C10: `"Adams, John, Jr."` splits into three parts and passes
through both converters unchanged. -/
theorem claim10_convert_name_passthrough_witness :
    (containsChar "Adams, John, Jr." ',' = false ∨
      (pySplit "Adams, John, Jr." ", ").length ≠ 2) ∧
    convert_name "Adams, John, Jr." = "Adams, John, Jr." ∧
    convert_name_x "Adams, John, Jr." = "Adams, John, Jr." :=
  ⟨Or.inr (by decide),
   (claim10_convert_name_passthrough "Adams, John, Jr." (Or.inr (by decide))).1,
   (claim10_convert_name_passthrough "Adams, John, Jr." (Or.inr (by decide))).2⟩

/-- C2 counterexample.  With `"paris"` registered as a `place`, an index term
whose midsub is `"Paris"` still resolves to `term`: `update_json` consults
the registry for the main position only, so the claim's "whether it occurs in
main, midsub, or sub position" fails. -/
theorem claim2_counterexample_midsub_ignores_registry :
    lookupM [("paris", "place")] (normalize_term "Paris") = some "place" ∧
    (updateEntry [("paris", "place")] []
      { main := some (.s "France"), midsub := some (.s "Paris") }).midsub =
      some { term := "Paris", ty := "term" } ∧
    ({ term := "Paris", ty := "term" } : FlatTerm) ≠ { term := "Paris", ty := "place" } :=
  ⟨by decide, by decide, by decide⟩

/-- C2 amended.  Registered entities short-circuit classification in
`json_classification.py` exactly at the main position: a main term whose
normalized form is registered with kind `k` resolves to `k` (lowercased),
and a term whose normalized form is registered is never added to the
submitted task batch.  Midsub/sub positions resolve through the matched
classification dict only. -/
theorem claim2_amended_registry_resolution :
    (∀ ke md : List (String × String), ∀ e : IxEntry, ∀ k : String,
        lookupM ke (normalize_term (getTermStr e.main)) = some k →
        (updateEntry ke md e).ty = pyLowerStr k) ∧
    (∀ ke : List (String × String), ∀ terms : List String, ∀ cid t : String,
        (cid, t) ∈ buildTasks ke terms →
        lookupM ke (normalize_term t) = none) := by
  constructor
  · intro ke md e k h
    show (create_term_obj (getTermStr e.main)
      (resolveMainLabel ke md (getTermStr e.main))).ty = pyLowerStr k
    unfold resolveMainLabel
    rw [h]
    rfl
  · intro ke terms cid t ht
    unfold buildTasks at ht
    simp only [List.mem_map, List.mem_filter] at ht
    obtain ⟨p, ⟨hmem, hnone⟩, heq⟩ := ht
    have hp2 : t = p.2 := (congrArg Prod.snd heq).symm
    rw [hp2]
    exact Option.isNone_iff_eq_none.mp hnone

/-- Witness for C2 amended: `"Paris"` registered as `place` resolves to
`place` at the main position, and a registered term is filtered out of the
batch (here the batch over `["Paris"]` with `"paris"` registered is empty,
so the witness instantiates the batch conjunct on an unregistered term). -/
theorem claim2_amended_registry_resolution_witness :
    lookupM [("paris", "place")] (normalize_term (getTermStr
      (IxEntry.main { main := some (.s "Paris") }))) = some "place" ∧
    (updateEntry [("paris", "place")] [] { main := some (.s "Paris") }).ty =
      pyLowerStr "place" ∧
    ("task-0", "Agriculture") ∈ buildTasks [("paris", "place")] ["Agriculture"] ∧
    lookupM [("paris", "place")] (normalize_term "Agriculture") = none :=
  ⟨by decide,
   claim2_amended_registry_resolution.1 [("paris", "place")] []
     { main := some (.s "Paris") } "place" (by decide),
   by decide,
   claim2_amended_registry_resolution.2 [("paris", "place")] ["Agriculture"]
     "task-0" "Agriculture" (by decide)⟩

/-- C3 counterexample.  A term submitted in a batch whose response lacks its
entry resolves to `unknown`, not `term`: the response matcher defaults the
classification to the literal `"Unknown"`, which the assembler lowercases
into the output type. -/
theorem claim3_counterexample_unknown_leak :
    buildTasks [] ["Monticello"] = [("task-0", "Monticello")] ∧
    toLabelDict (buildMatched (buildTasks [] ["Monticello"]) []) =
      [("monticello", "unknown")] ∧
    (updateEntry [] (toLabelDict (buildMatched (buildTasks [] ["Monticello"]) []))
      { main := some (.s "Monticello") }).ty = "unknown" ∧
    ("unknown" : String) ≠ "term" :=
  ⟨by decide, by decide, by decide, by decide⟩

/-- C3 amended.  A term absent from both the registry and the matched dict
does default to `term`; a term whose batch response entry is missing is
matched with classification `"Unknown"` (hence output type `unknown`, not
`term`) in `json_classification.py`; in `xml_to_json.py` an unresolved term
does become a plain `term` node. -/
theorem claim3_amended_term_default :
    (∀ ke md : List (String × String), ∀ e : IxEntry,
        lookupM ke (normalize_term (getTermStr e.main)) = none →
        lookupM md (normalize_term (getTermStr e.main)) = none →
        (updateEntry ke md e).ty = "term") ∧
    (∀ input output : List (String × String), ∀ m : Matched,
        m ∈ buildMatched input output →
        lookupM output m.custom_id = none →
        m.classification = "Unknown") ∧
    (∀ ke ttl : List (String × String), ∀ mt : String,
        lookupM ke (normalize_term mt) = none →
        lookupM ttl mt = none →
        xmlMainObj ke ttl mt = { term := mt, ty := "term", uri := none }) := by
  refine ⟨?_, ?_, ?_⟩
  · intro ke md e h1 h2
    show (create_term_obj (getTermStr e.main)
      (resolveMainLabel ke md (getTermStr e.main))).ty = "term"
    unfold resolveMainLabel
    rw [h1, h2]
    show pyLowerStr "TERM" = "term"
    decide
  · intro input output m hm hnone
    unfold buildMatched at hm
    simp only [List.mem_map] at hm
    obtain ⟨p, hmem, heq⟩ := hm
    subst heq
    dsimp only at hnone ⊢
    rw [hnone]
    rfl
  · intro ke ttl mt h1 h2
    unfold xmlMainObj xmlMainLabel pyOrStr
    rw [h1, h2]
    simp only [Option.getD_none]
    rw [if_neg (by decide), if_neg (by decide), if_neg (by decide)]

/-- Witness for C3 amended at concrete inputs: an unmatched term defaults to
`term` on both pipeline variants, and a missing response entry is matched as
`"Unknown"`. -/
theorem claim3_amended_term_default_witness :
    (updateEntry [] [] { main := some (.s "Agriculture") }).ty = "term" ∧
    ({ custom_id := "task-0", content := "Monticello", classification := "Unknown" } : Matched) ∈
      buildMatched [("task-0", "Monticello")] [] ∧
    ({ custom_id := "task-0", content := "Monticello",
        classification := "Unknown" } : Matched).classification = "Unknown" ∧
    xmlMainObj [] [] "Agriculture" = { term := "Agriculture", ty := "term", uri := none } :=
  ⟨claim3_amended_term_default.1 [] [] { main := some (.s "Agriculture") }
     (by decide) (by decide),
   by decide,
   claim3_amended_term_default.2.1 [("task-0", "Monticello")] []
     { custom_id := "task-0", content := "Monticello", classification := "Unknown" }
     (by decide) (by decide),
   claim3_amended_term_default.2.2 [] [] "Agriculture" (by decide) (by decide)⟩

/-- C6 counterexample.  The Document Assembler is not idempotent: its output
stores the main text under `term` while its input is read from `main`, so a
second application replaces the main text with the empty string. -/
theorem claim6_counterexample_not_idempotent :
    update_json [] []
        (update_json [] [] [{ indexing := [{ main := some (.s "Agriculture") }] }]) ≠
      update_json [] [] [{ indexing := [{ main := some (.s "Agriculture") }] }] := by
  decide

/-- C6 amended.  The assembler is idempotent on documents with an empty
indexing list whose converted author and recipient names are fixed points of
a second conversion — a sufficient condition, not a characterization (e.g. a
document whose only index entry has an empty-string main text also happens to
be a fixed point). -/
theorem claim6_amended_restricted_idempotence :
    ∀ ke md : List (String × String), ∀ d : JDoc,
      d.indexing = [] →
      (∀ n ∈ d.authors, convert_name (convert_name n) = convert_name n) →
      (∀ n ∈ d.recipients, convert_name (convert_name n) = convert_name n) →
      updateDoc ke md (updateDoc ke md d) = updateDoc ke md d := by
  intro ke md d hidx ha hr
  unfold updateDoc
  simp only [hidx, List.map_nil, List.map_map, JDoc.mk.injEq, and_true, true_and]
  constructor
  · exact List.map_congr_left fun n hn => ha n hn
  · exact List.map_congr_left fun n hn => hr n hn

/-- Witness for C6 amended on a document with one author and no index
terms. -/
theorem claim6_amended_restricted_idempotence_witness :
    (JDoc.indexing { authors := ["Jefferson, Thomas"] } = []) ∧
    (∀ n ∈ JDoc.authors { authors := ["Jefferson, Thomas"] },
      convert_name (convert_name n) = convert_name n) ∧
    updateDoc [] [] (updateDoc [] [] { authors := ["Jefferson, Thomas"] }) =
      updateDoc [] [] { authors := ["Jefferson, Thomas"] } :=
  ⟨by decide, by decide,
   claim6_amended_restricted_idempotence [] [] { authors := ["Jefferson, Thomas"] }
     (by decide) (by decide) (by decide)⟩

/-- C7 counterexample.  With a matched classification value `unknown` (the
lowercased `"Unknown"` sentinel produced for missing response entries), the
assembler emits a node of type `unknown` — outside the claimed four-way
vocabulary — and the URI stage then attaches a URI to it. -/
theorem claim7_counterexample_unknown_type :
    (updateEntry [] [("shadwell", "unknown")] { main := some (.s "Shadwell") }).ty ∉
      typeVocab ∧
    (add_uri_if_needed
      { term := "Shadwell",
        ty := (updateEntry [] [("shadwell", "unknown")]
                { main := some (.s "Shadwell") }).ty }).uri.isSome = true :=
  ⟨by decide, by decide⟩

/-- C7 amended.  Whenever every registry and matched-dict value lowercases
into the four-way vocabulary, every node built by the assembler has a type in
that vocabulary; and the URI stage attaches a URI to a URI-less node exactly
when its type is not `term`. -/
theorem claim7_amended_vocabulary_and_uri :
    (∀ ke md : List (String × String), ∀ e : IxEntry,
        (∀ p ∈ ke, pyLowerStr p.2 ∈ typeVocab) →
        (∀ p ∈ md, pyLowerStr p.2 ∈ typeVocab) →
        (updateEntry ke md e).ty ∈ typeVocab ∧
        (∀ f, (updateEntry ke md e).midsub = some f → f.ty ∈ typeVocab) ∧
        (∀ f, (updateEntry ke md e).sub = some f → f.ty ∈ typeVocab)) ∧
    (∀ t : TermNode, t.uri = none →
        ((add_uri_if_needed t).uri.isSome = true ↔ t.ty ≠ "term")) := by
  constructor
  · intro ke md e hke hmd
    have hmain : pyLowerStr (resolveMainLabel ke md (getTermStr e.main)) ∈ typeVocab := by
      rcases resolveMainLabel_cases ke md (getTermStr e.main) with
        ⟨p, hp, hv⟩ | ⟨p, hp, hv⟩ | hv
      · rw [← hv]; exact hke p hp
      · rw [← hv]; exact hmd p hp
      · rw [hv]; decide
    have hsubv : ∀ s : String, pyLowerStr (resolveSubLabel md s) ∈ typeVocab := by
      intro s
      rcases resolveSubLabel_cases md s with ⟨p, hp, hv⟩ | hv
      · rw [← hv]; exact hmd p hp
      · rw [hv]; decide
    refine ⟨hmain, ?_, ?_⟩
    · intro f hf
      simp only [updateEntry] at hf
      by_cases hms : getTermStr e.midsub ≠ ""
      · rw [if_pos hms] at hf
        injection hf with hf
        rw [← hf]
        exact hsubv _
      · rw [if_neg hms] at hf
        cases hf
    · intro f hf
      simp only [updateEntry] at hf
      by_cases hss : getTermStr e.sub ≠ ""
      · rw [if_pos hss] at hf
        injection hf with hf
        rw [← hf]
        exact hsubv _
      · rw [if_neg hss] at hf
        cases hf
  · intro t huri
    unfold add_uri_if_needed
    by_cases hty : t.ty ≠ "term"
    · rw [if_pos hty]
      simp [hty]
    · rw [if_neg hty]
      simp [huri, hty]

/-- Witness for C7 amended: a place registry entry yields a `place` node, and
the URI stage decorates a URI-less `place` node but not a `term` node. -/
theorem claim7_amended_vocabulary_and_uri_witness :
    (updateEntry [("monticello", "place")] [] { main := some (.s "Monticello") }).ty ∈
      typeVocab ∧
    ((add_uri_if_needed { term := "Monticello", ty := "place" }).uri.isSome = true ↔
      ("place" : String) ≠ "term") :=
  ⟨(claim7_amended_vocabulary_and_uri.1 [("monticello", "place")] []
      { main := some (.s "Monticello") } (by decide) (by decide)).1,
   claim7_amended_vocabulary_and_uri.2 { term := "Monticello", ty := "place" } rfl⟩

/-- Unfolding equation of `dedupFirst` on a cons cell. -/
theorem dedupFirst_cons (t : String × String × String)
    (rest : List (String × String × String)) :
    dedupFirst (t :: rest) = t :: dedupFirst (rest.filter (fun x => decide (x ≠ t))) := by
  simp only [dedupFirst]

/-- The dedup loop with an explicit seen set equals first-occurrence dedup of
the unseen part of the cleaned input. -/
theorem collectAux_eq (l : List (String × String × String)) :
    ∀ seen, collectAux seen l =
      dedupFirst ((l.map stripTriple).filter (fun x => decide (x ∉ seen))) := by
  induction l with
  | nil =>
    intro seen
    simp only [List.map_nil, List.filter_nil, collectAux, dedupFirst]
  | cons t rest ih =>
    intro seen
    show (if stripTriple t ∈ seen then collectAux seen rest
      else stripTriple t :: collectAux (stripTriple t :: seen) rest) =
      dedupFirst (((t :: rest).map stripTriple).filter (fun x => decide (x ∉ seen)))
    rw [List.map_cons, List.filter_cons]
    by_cases hmem : stripTriple t ∈ seen
    · rw [if_pos hmem]
      have hd : decide (stripTriple t ∉ seen) = false := by simpa using hmem
      rw [hd, if_neg (by simp)]
      exact ih seen
    · rw [if_neg hmem]
      have hd : decide (stripTriple t ∉ seen) = true := by simpa using hmem
      rw [hd, if_pos rfl, dedupFirst_cons, List.filter_filter]
      have hpt : ((rest.map stripTriple).filter
          (fun a => decide (a ≠ stripTriple t) && decide (a ∉ seen))) =
          ((rest.map stripTriple).filter (fun a => decide (a ∉ stripTriple t :: seen))) := by
        apply List.filter_congr
        intro a _
        rw [← Bool.decide_and]
        apply decide_eq_decide.mpr
        simp [List.mem_cons, not_or]
      rw [hpt, ← ih (stripTriple t :: seen)]

/-- C4 counterexample.  `"New  York"` and `"New York"` are equal after
whitespace normalization (and contain no parentheticals), yet ingestion keeps
both: the dedup key only strips parentheticals and trims the ends, without
collapsing interior whitespace runs or folding case. -/
theorem claim4_counterexample_interior_whitespace :
    normalize_term "New  York" = normalize_term "New York" ∧
    collect_terms_from_xml [("New  York", "", ""), ("New York", "", "")] =
      [("New  York", "", ""), ("New York", "", "")] :=
  ⟨by decide, by decide⟩

/-- C4 amended.  Ingestion dedup equals first-occurrence dedup of the cleaned
triples, where cleaning is exactly parenthetical-stripping followed by
leading/trailing trimming (case-sensitive and interior-whitespace-sensitive);
the first occurrence wins and input order is preserved. -/
theorem claim4_amended_dedup_is_first_occurrence :
    ∀ l, collect_terms_from_xml l = dedupFirst (l.map stripTriple) := by
  intro l
  unfold collect_terms_from_xml
  rw [collectAux_eq]
  congr 1
  apply List.filter_eq_self.mpr
  intro a _
  simp

/-! ## Lemmas on the word decomposition (for C8) -/

/-- Dropping a prefix cannot lengthen a list. -/
theorem length_dropWhile_le' (p : Char → Bool) (l : List Char) :
    (l.dropWhile p).length ≤ l.length := by
  induction l with
  | nil => simp
  | cons a l ih =>
    rw [List.dropWhile_cons]
    by_cases h : p a = true
    · rw [if_pos h]; exact Nat.le_succ_of_le ih
    · rw [if_neg h]

/-- Any sufficient fuel computes the same word decomposition. -/
theorem wordsOfF_congr : ∀ (n : Nat), ∀ l : List Char, l.length ≤ n →
    wordsOfF n l = wordsOf l := by
  intro n
  induction n using Nat.strong_induction_on with
  | _ n ih =>
    intro l hl
    cases l with
    | nil =>
      cases n with
      | zero => rfl
      | succ m => rfl
    | cons c rest =>
      cases n with
      | zero => simp at hl
      | succ m =>
        have hrest : rest.length ≤ m := by simpa using hl
        have hmlt : m < m + 1 := Nat.lt_succ_self m
        have hrlt : rest.length < m + 1 := Nat.lt_succ_of_le hrest
        show (if isWS c then wordsOfF m rest
            else (c :: rest).takeWhile (fun d => !isWS d) ::
              wordsOfF m ((c :: rest).dropWhile (fun d => !isWS d))) = wordsOf (c :: rest)
        have hRHS : wordsOf (c :: rest) =
            (if isWS c then wordsOfF rest.length rest
              else (c :: rest).takeWhile (fun d => !isWS d) ::
                wordsOfF rest.length ((c :: rest).dropWhile (fun d => !isWS d))) := rfl
        rw [hRHS]
        by_cases h : isWS c = true
        · rw [if_pos h, if_pos h, ih m hmlt rest hrest,
            ih rest.length hrlt rest (Nat.le_refl _)]
        · have hcf : isWS c = false := Bool.eq_false_iff.mpr h
          rw [if_neg h, if_neg h]
          have hplen : ((c :: rest).dropWhile (fun d => !isWS d)).length ≤ rest.length := by
            rw [List.dropWhile_cons, if_pos (by simp [hcf])]
            exact length_dropWhile_le' _ _
          rw [ih m hmlt _ (le_trans hplen hrest), ih rest.length hrlt _ hplen]

/-- Unfolding equation of `wordsOf` on a cons cell. -/
theorem wordsOf_cons (c : Char) (rest : List Char) :
    wordsOf (c :: rest) =
      if isWS c then wordsOf rest
      else (c :: rest).takeWhile (fun d => !isWS d) ::
        wordsOf ((c :: rest).dropWhile (fun d => !isWS d)) := by
  show (if isWS c then wordsOfF rest.length rest
      else (c :: rest).takeWhile (fun d => !isWS d) ::
        wordsOfF rest.length ((c :: rest).dropWhile (fun d => !isWS d))) = _
  by_cases h : isWS c = true
  · rw [if_pos h, if_pos h, wordsOfF_congr rest.length rest (Nat.le_refl _)]
  · have hcf : isWS c = false := Bool.eq_false_iff.mpr h
    rw [if_neg h, if_neg h]
    congr 1
    apply wordsOfF_congr
    rw [List.dropWhile_cons, if_pos (by simp [hcf])]
    exact length_dropWhile_le' _ _

/-- A collapse that just consumed whitespace continues past the rest of the
run. -/
theorem collapseAux_true (l : List Char) :
    collapseAux true l = collapseAux false (l.dropWhile (fun x => isWS x)) := by
  induction l with
  | nil => rfl
  | cons c rest ih =>
    rw [List.dropWhile_cons]
    by_cases h : isWS c = true
    · rw [if_pos h]
      show (if isWS c then collapseAux true rest else c :: collapseAux false rest) = _
      rw [if_pos h]
      exact ih
    · rw [if_neg h]
      show (if isWS c then collapseAux true rest else c :: collapseAux false rest) =
        (if isWS c then ' ' :: collapseAux true rest else c :: collapseAux false rest)
      rw [if_neg h, if_neg h]

/-- Unfolding equation of the whitespace collapse on a cons cell. -/
theorem collapseChars_cons (c : Char) (rest : List Char) :
    collapseChars (c :: rest) =
      if isWS c then ' ' :: collapseChars (rest.dropWhile (fun x => isWS x))
      else c :: collapseChars rest := by
  show (if isWS c then ' ' :: collapseAux true rest else c :: collapseAux false rest) = _
  by_cases h : isWS c = true
  · rw [if_pos h, if_pos h, collapseAux_true]
    rfl
  · rw [if_neg h, if_neg h]
    rfl

/-- The collapse passes a whitespace-free prefix through verbatim. -/
theorem collapseChars_append_nonWS (w r : List Char)
    (hw : ∀ c ∈ w, isWS c = false) :
    collapseChars (w ++ r) = w ++ collapseChars r := by
  induction w with
  | nil => rfl
  | cons c w' ih =>
    have hc : isWS c = false := hw c (List.mem_cons_self c w')
    rw [List.cons_append, collapseChars_cons, if_neg (by simp [hc]),
      ih fun d hd => hw d (List.mem_cons_of_mem c hd), List.cons_append]

/-- The head surviving a `dropWhile` fails the predicate. -/
theorem dropWhile_head_false {p : Char → Bool} :
    ∀ {l t : List Char} {c : Char}, l.dropWhile p = c :: t → p c = false := by
  intro l
  induction l with
  | nil => intro t c h; cases h
  | cons a l' ih =>
    intro t c h
    rw [List.dropWhile_cons] at h
    by_cases hp : p a = true
    · rw [if_pos hp] at h; exact ih h
    · rw [if_neg hp] at h
      injection h with h1 h2
      rw [← h1]
      exact Bool.eq_false_iff.mpr hp

/-- Leading whitespace does not change the word decomposition. -/
theorem wordsOf_dropWhileWS (l : List Char) :
    wordsOf (l.dropWhile (fun x => isWS x)) = wordsOf l := by
  induction l with
  | nil => rfl
  | cons c rest ih =>
    rw [List.dropWhile_cons]
    by_cases h : isWS c = true
    · rw [if_pos h, ih, wordsOf_cons, if_pos h]
    · rw [if_neg h]

/-- `trimL` consumes a whitespace head. -/
theorem trimL_cons_ws {c : Char} (h : isWS c = true) (l : List Char) :
    trimL (c :: l) = trimL l := by
  unfold trimL
  rw [List.dropWhile_cons, if_pos h]

/-- `trimL` stops at a non-whitespace head. -/
theorem trimL_cons_nonws {c : Char} (h : isWS c = false) (l : List Char) :
    trimL (c :: l) = c :: l := by
  unfold trimL
  rw [List.dropWhile_cons, if_neg (by simp [h])]

/-- Trailing-trim of an append, split on whether the suffix trims away. -/
theorem trimTrail_append (a b : List Char) :
    trimTrail (a ++ b) =
      if trimTrail b = [] then trimTrail a else a ++ trimTrail b := by
  induction a with
  | nil =>
    rw [List.nil_append]
    by_cases hb : trimTrail b = []
    · rw [if_pos hb, hb]; rfl
    · rw [if_neg hb, List.nil_append]
  | cons c a' ih =>
    have lhs_eq : trimTrail ((c :: a') ++ b) =
        if trimTrail (a' ++ b) = [] ∧ isWS c then []
        else c :: trimTrail (a' ++ b) := rfl
    have rhs_eq : trimTrail (c :: a') =
        if trimTrail a' = [] ∧ isWS c then [] else c :: trimTrail a' := rfl
    rw [lhs_eq, ih]
    by_cases hb : trimTrail b = []
    · rw [if_pos hb, if_pos hb, rhs_eq]
    · rw [if_neg hb, if_neg hb]
      have hne : ¬((a' ++ trimTrail b) = [] ∧ isWS c = true) := by
        rintro ⟨h1, _⟩
        exact hb (List.append_eq_nil.mp h1).2
      rw [if_neg hne, List.cons_append]

/-- Trailing-trim fixes a whitespace-free list. -/
theorem trimTrail_nonWS {w : List Char} (hw : ∀ c ∈ w, isWS c = false) :
    trimTrail w = w := by
  induction w with
  | nil => rfl
  | cons c w' ih =>
    have hc : isWS c = false := hw c (List.mem_cons_self c w')
    have ih' := ih fun d hd => hw d (List.mem_cons_of_mem c hd)
    show (if trimTrail w' = [] ∧ isWS c then [] else c :: trimTrail w') = c :: w'
    rw [ih', if_neg (by rintro ⟨_, hws⟩; rw [hc] at hws; cases hws)]

/-- `takeWhile` keeps all of a whitespace-free list. -/
theorem takeWhile_all_nonWS {w : List Char} (hw : ∀ c ∈ w, isWS c = false) :
    w.takeWhile (fun d => !isWS d) = w := by
  induction w with
  | nil => rfl
  | cons c w' ih =>
    rw [List.takeWhile_cons, if_pos (by simp [hw c (List.mem_cons_self c w')]),
      ih fun d hd => hw d (List.mem_cons_of_mem c hd)]

/-- `dropWhile` exhausts a whitespace-free list. -/
theorem dropWhile_all_nonWS {w : List Char} (hw : ∀ c ∈ w, isWS c = false) :
    w.dropWhile (fun d => !isWS d) = [] := by
  induction w with
  | nil => rfl
  | cons c w' ih =>
    rw [List.dropWhile_cons, if_pos (by simp [hw c (List.mem_cons_self c w')])]
    exact ih fun d hd => hw d (List.mem_cons_of_mem c hd)

/-- Take/drop of a whitespace-free word followed by a space boundary. -/
theorem takeWhile_append_space {w : List Char} (hw : ∀ c ∈ w, isWS c = false)
    (r : List Char) :
    (w ++ ' ' :: r).takeWhile (fun d => !isWS d) = w ∧
    (w ++ ' ' :: r).dropWhile (fun d => !isWS d) = ' ' :: r := by
  induction w with
  | nil =>
    constructor
    · rw [List.nil_append, List.takeWhile_cons, if_neg (by decide)]
    · rw [List.nil_append, List.dropWhile_cons, if_neg (by decide)]
  | cons c w' ih =>
    have hc : isWS c = false := hw c (List.mem_cons_self c w')
    have ih' := ih fun d hd => hw d (List.mem_cons_of_mem c hd)
    constructor
    · rw [List.cons_append, List.takeWhile_cons, if_pos (by simp [hc]), ih'.1]
    · rw [List.cons_append, List.dropWhile_cons, if_pos (by simp [hc])]
      exact ih'.2

/-- Every word produced by the decomposition is nonempty and
whitespace-free. -/
theorem wordsOf_wellFormed : ∀ (n : Nat), ∀ l : List Char, l.length ≤ n →
    ∀ w ∈ wordsOf l, w ≠ [] ∧ ∀ c ∈ w, isWS c = false := by
  intro n
  induction n with
  | zero =>
    intro l hl w hw
    have : l = [] := List.length_eq_zero.mp (Nat.le_zero.mp hl)
    subst this
    exact absurd hw (List.not_mem_nil w)
  | succ n ih =>
    intro l hl w hw
    cases l with
    | nil => exact absurd hw (List.not_mem_nil w)
    | cons c rest =>
      have hrest : rest.length ≤ n := by simpa using hl
      rw [wordsOf_cons] at hw
      by_cases h : isWS c = true
      · rw [if_pos h] at hw
        exact ih rest hrest w hw
      · have hcf : isWS c = false := Bool.eq_false_iff.mpr h
        rw [if_neg h] at hw
        rcases List.mem_cons.mp hw with rfl | hw'
        · constructor
          · rw [List.takeWhile_cons, if_pos (by simp [hcf])]
            simp
          · intro d hd
            have := List.mem_takeWhile_imp hd
            simpa using this
        · have hlen : ((c :: rest).dropWhile (fun d => !isWS d)).length ≤ n := by
            rw [List.dropWhile_cons, if_pos (by simp [hcf])]
            exact le_trans (length_dropWhile_le' _ _) hrest
          exact ih _ hlen w hw'

/-- The decomposition inverts the join on well-formed word lists. -/
theorem wordsOf_unwords : ∀ ws : List (List Char),
    (∀ w ∈ ws, w ≠ [] ∧ ∀ c ∈ w, isWS c = false) →
    wordsOf (unwords ws) = ws := by
  intro ws
  induction ws with
  | nil => intro _; rfl
  | cons w ws' ih =>
    intro h
    obtain ⟨hne, hnw⟩ := h w (List.mem_cons_self w ws')
    cases ws' with
    | nil =>
      show wordsOf w = [w]
      obtain ⟨c, w', rfl⟩ := List.exists_cons_of_ne_nil hne
      have hc : isWS c = false := hnw c (List.mem_cons_self c w')
      rw [wordsOf_cons, if_neg (by simp [hc]),
        takeWhile_all_nonWS hnw, dropWhile_all_nonWS hnw]
      rfl
    | cons w2 ws'' =>
      have h' : ∀ v ∈ w2 :: ws'', v ≠ [] ∧ ∀ c ∈ v, isWS c = false :=
        fun v hv => h v (List.mem_cons_of_mem w hv)
      have ih' := ih h'
      show wordsOf (w ++ ' ' :: unwords (w2 :: ws'')) = w :: w2 :: ws''
      obtain ⟨c, w', rfl⟩ := List.exists_cons_of_ne_nil hne
      have hc : isWS c = false := hnw c (List.mem_cons_self c w')
      have hsp := takeWhile_append_space hnw (unwords (w2 :: ws''))
      rw [List.cons_append, wordsOf_cons, if_neg (by simp [hc]),
        ← List.cons_append, hsp.1, hsp.2, wordsOf_cons, if_pos (by decide), ih']

/-- The strip-of-collapse pipeline equals the canonical space-joined word
decomposition. -/
theorem strip_collapse_eq_unwords : ∀ (n : Nat), ∀ l : List Char, l.length ≤ n →
    pyStripChars (collapseChars l) = unwords (wordsOf l) := by
  intro n
  induction n with
  | zero =>
    intro l hl
    have : l = [] := List.length_eq_zero.mp (Nat.le_zero.mp hl)
    subst this
    rfl
  | succ n ih =>
    intro l hl
    cases l with
    | nil => rfl
    | cons c rest =>
      have hrest : rest.length ≤ n := by simpa using hl
      by_cases h : isWS c = true
      · rw [collapseChars_cons, if_pos h]
        unfold pyStripChars
        rw [trimL_cons_ws (by decide)]
        have hih := ih (rest.dropWhile (fun x => isWS x))
          (le_trans (length_dropWhile_le' _ _) hrest)
        unfold pyStripChars at hih
        rw [hih, wordsOf_dropWhileWS, wordsOf_cons, if_pos h]
      · have hcf : isWS c = false := Bool.eq_false_iff.mpr h
        have hw_all : ∀ d ∈ (c :: rest).takeWhile (fun d => !isWS d),
            isWS d = false := by
          intro d hd
          have := List.mem_takeWhile_imp hd
          simpa using this
        have hsplit := List.takeWhile_append_dropWhile
          (p := fun d => !isWS d) (l := c :: rest)
        have e1 : collapseChars (c :: rest) =
            (c :: rest).takeWhile (fun d => !isWS d) ++
              collapseChars ((c :: rest).dropWhile (fun d => !isWS d)) := by
          conv_lhs => rw [← hsplit]
          exact collapseChars_append_nonWS _ _ hw_all
        have hwcons : (c :: rest).takeWhile (fun d => !isWS d) =
            c :: rest.takeWhile (fun d => !isWS d) := by
          rw [List.takeWhile_cons, if_pos (by simp [hcf])]
        have hdrop_eq : (c :: rest).dropWhile (fun d => !isWS d) =
            rest.dropWhile (fun d => !isWS d) := by
          rw [List.dropWhile_cons, if_pos (by simp [hcf])]
        rw [e1, wordsOf_cons, if_neg h]
        cases hr : (c :: rest).dropWhile (fun d => !isWS d) with
        | nil =>
          rw [show collapseChars ([] : List Char) = [] from rfl, List.append_nil]
          unfold pyStripChars
          rw [hwcons, trimL_cons_nonws hcf, ← hwcons, trimTrail_nonWS hw_all]
          rfl
        | cons d r' =>
          have hd_ws : isWS d = true := by
            have := dropWhile_head_false hr
            simpa using this
          rw [collapseChars_cons, if_pos hd_ws]
          have hr'len : r'.length < rest.length := by
            have h1 : rest.dropWhile (fun d => !isWS d) = d :: r' := by
              rw [← hdrop_eq]; exact hr
            have h2 := length_dropWhile_le' (fun d => !isWS d) rest
            rw [h1] at h2
            simp only [List.length_cons] at h2
            omega
          cases hr2 : r'.dropWhile (fun x => isWS x) with
          | nil =>
            rw [show collapseChars ([] : List Char) = [] from rfl]
            unfold pyStripChars
            rw [hwcons, List.cons_append, trimL_cons_nonws hcf,
              ← List.cons_append, ← hwcons, trimTrail_append,
              if_pos (show trimTrail [' '] = [] from rfl),
              trimTrail_nonWS hw_all, wordsOf_cons, if_pos hd_ws,
              ← wordsOf_dropWhileWS r', hr2]
            rfl
          | cons e r3 =>
            have he : isWS e = false := by
              have := dropWhile_head_false hr2
              simpa using this
            have hr2len : (r'.dropWhile (fun x => isWS x)).length ≤ n := by
              have := length_dropWhile_le' (fun x => isWS x) r'
              omega
            have ihY := ih (r'.dropWhile (fun x => isWS x)) hr2len
            rw [hr2] at ihY
            have hYcons : collapseChars (e :: r3) = e :: collapseChars r3 := by
              rw [collapseChars_cons, if_neg (by simp [he])]
            have hstripY : pyStripChars (collapseChars (e :: r3)) =
                trimTrail (collapseChars (e :: r3)) := by
              unfold pyStripChars
              rw [hYcons, trimL_cons_nonws he]
            have hYne : trimTrail (collapseChars (e :: r3)) ≠ [] := by
              rw [hYcons]
              have heq : trimTrail (e :: collapseChars r3) =
                  if trimTrail (collapseChars r3) = [] ∧ isWS e then []
                  else e :: trimTrail (collapseChars r3) := rfl
              rw [heq, if_neg (by rintro ⟨_, hws⟩; rw [he] at hws; cases hws)]
              simp
            have hTsp : trimTrail (' ' :: collapseChars (e :: r3)) =
                ' ' :: trimTrail (collapseChars (e :: r3)) := by
              have heq2 : trimTrail (' ' :: collapseChars (e :: r3)) =
                  if trimTrail (collapseChars (e :: r3)) = [] ∧ isWS ' ' then []
                  else ' ' :: trimTrail (collapseChars (e :: r3)) := rfl
              rw [heq2, if_neg (fun hx => hYne hx.1)]
            unfold pyStripChars
            rw [hwcons, List.cons_append, trimL_cons_nonws hcf,
              ← List.cons_append, ← hwcons, trimTrail_append, hTsp,
              if_neg (by simp), ← hstripY, ihY,
              wordsOf_cons d r', if_pos hd_ws,
              ← wordsOf_dropWhileWS r', hr2, wordsOf_cons (c := e),
              if_neg (by simp [he])]
            rfl

/-- Lowercasing commutes with the space join. -/
theorem map_lower_unwords : ∀ ws : List (List Char),
    (unwords ws).map pyLowerChar = unwords (ws.map (fun w => w.map pyLowerChar)) := by
  intro ws
  induction ws with
  | nil => rfl
  | cons w ws' ih =>
    cases ws' with
    | nil => rfl
    | cons w2 ws'' =>
      show (w ++ ' ' :: unwords (w2 :: ws'')).map pyLowerChar = _
      rw [List.map_append, List.map_cons, ih]
      rfl

/-- The normalizer factors through the case-folded word decomposition. -/
theorem normalize_term_factored (s : String) :
    normalize_term s = String.mk (unwords (wordsLower s)) := by
  unfold normalize_term wordsLower
  rw [strip_collapse_eq_unwords s.data.length s.data (Nat.le_refl _),
    map_lower_unwords]

/-- `Char.ofNat` on a valid scalar value round-trips through `toNat`. -/
theorem toNat_ofNat_valid {n : Nat} (h : n.isValidChar) :
    (Char.ofNat n).toNat = n := by
  rw [Char.ofNat, dif_pos h]
  rfl

/-- The scalar value of the lowercased character. -/
theorem pyLowerChar_toNat (c : Char) :
    (pyLowerChar c).toNat =
      if 65 ≤ c.toNat ∧ c.toNat ≤ 90 then c.toNat + 32 else c.toNat := by
  unfold pyLowerChar
  by_cases h : 65 ≤ c.toNat ∧ c.toNat ≤ 90
  · rw [if_pos h, if_pos h]
    exact toNat_ofNat_valid (Or.inl (by omega))
  · rw [if_neg h, if_neg h]

/-- Lowercasing does not create or destroy whitespace. -/
theorem isWS_pyLowerChar (c : Char) : isWS (pyLowerChar c) = isWS c := by
  unfold isWS
  rw [pyLowerChar_toNat]
  by_cases h : 65 ≤ c.toNat ∧ c.toNat ≤ 90
  · rw [if_pos h]
    exact decide_eq_decide.mpr (by omega)
  · rw [if_neg h]

/-- ASCII lowercasing is idempotent. -/
theorem pyLowerChar_idem (c : Char) :
    pyLowerChar (pyLowerChar c) = pyLowerChar c := by
  by_cases h : 65 ≤ c.toNat ∧ c.toNat ≤ 90
  · have ht : (pyLowerChar c).toNat = c.toNat + 32 := by
      rw [pyLowerChar_toNat, if_pos h]
    show (if 65 ≤ (pyLowerChar c).toNat ∧ (pyLowerChar c).toNat ≤ 90 then
        Char.ofNat ((pyLowerChar c).toNat + 32) else pyLowerChar c) = pyLowerChar c
    rw [if_neg (by rw [ht]; omega)]
  · have hfix : pyLowerChar c = c := by unfold pyLowerChar; rw [if_neg h]
    rw [hfix]
    exact hfix

/-- C8 (confirmed).  The Term Normalizer is idempotent, any two strings with
the same case-folded word decomposition — i.e. differing only in whitespace
runs, leading/trailing whitespace, and letter case — normalize to the same
key, and `"New  York"` collides with `"new york"`. -/
theorem claim8_normalizer_idempotent_and_insensitive :
    (∀ x : String, normalize_term (normalize_term x) = normalize_term x) ∧
    (∀ x y : String, wordsLower x = wordsLower y →
      normalize_term x = normalize_term y) ∧
    normalize_term "New  York" = normalize_term "new york" := by
  have hwf : ∀ s : String, ∀ w ∈ wordsLower s,
      w ≠ [] ∧ ∀ c ∈ w, isWS c = false := by
    intro s w hw
    unfold wordsLower at hw
    rw [List.mem_map] at hw
    obtain ⟨w0, hw0, rfl⟩ := hw
    obtain ⟨hne, hnw⟩ :=
      wordsOf_wellFormed s.data.length s.data (Nat.le_refl _) w0 hw0
    constructor
    · simpa using hne
    · intro c hc
      rw [List.mem_map] at hc
      obtain ⟨c0, hc0, rfl⟩ := hc
      rw [isWS_pyLowerChar]
      exact hnw c0 hc0
  have hcong : ∀ x y : String, wordsLower x = wordsLower y →
      normalize_term x = normalize_term y := by
    intro x y hxy
    rw [normalize_term_factored, normalize_term_factored, hxy]
  refine ⟨?_, hcong, hcong _ _ (by decide)⟩
  intro x
  have h1 : wordsLower (String.mk (unwords (wordsLower x))) = wordsLower x := by
    show (wordsOf (unwords (wordsLower x))).map (fun w => w.map pyLowerChar) =
      wordsLower x
    rw [wordsOf_unwords (wordsLower x) (hwf x)]
    unfold wordsLower
    rw [List.map_map]
    apply List.map_congr_left
    intro w0 _
    show (w0.map pyLowerChar).map pyLowerChar = w0.map pyLowerChar
    rw [List.map_map]
    exact List.map_congr_left fun c0 _ => pyLowerChar_idem c0
  rw [normalize_term_factored x, normalize_term_factored
    (String.mk (unwords (wordsLower x))), h1]

/-- Witness for C8 at the spec's own example strings. -/
theorem claim8_normalizer_witness :
    wordsLower "New  York" = wordsLower "new york" ∧
    normalize_term "New  York" = normalize_term "new york" :=
  ⟨by decide,
   claim8_normalizer_idempotent_and_insensitive.2.1 "New  York" "new york"
     (by decide)⟩

/-! ## Lemmas on the VIAF candidate selection (for C9) -/

/-- Code-point lexicographic order is irreflexive. -/
theorem strLtB_irrefl : ∀ l : List Char, strLtB l l = false := by
  intro l
  induction l with
  | nil => rfl
  | cons a as ih =>
    show (if a.toNat < a.toNat then true
      else if a.toNat < a.toNat then false else strLtB as as) = false
    rw [if_neg (lt_irrefl a.toNat), if_neg (lt_irrefl a.toNat)]
    exact ih

/-- Code-point lexicographic order is asymmetric. -/
theorem strLtB_asymm : ∀ {l1 l2 : List Char}, strLtB l1 l2 = true →
    strLtB l2 l1 = false := by
  intro l1
  induction l1 with
  | nil =>
    intro l2 h
    cases l2 with
    | nil => cases h
    | cons b bs => rfl
  | cons a as ih =>
    intro l2 h
    cases l2 with
    | nil => cases h
    | cons b bs =>
      show (if b.toNat < a.toNat then true
        else if a.toNat < b.toNat then false else strLtB bs as) = false
      by_cases hab : a.toNat < b.toNat
      · rw [if_neg (by omega), if_pos hab]
      · by_cases hba : b.toNat < a.toNat
        · rw [show strLtB (a :: as) (b :: bs) =
              (if a.toNat < b.toNat then true
                else if b.toNat < a.toNat then false else strLtB as bs) from rfl,
            if_neg hab, if_pos hba] at h
          cases h
        · rw [if_neg hba, if_neg hab]
          apply ih
          rw [show strLtB (a :: as) (b :: bs) =
              (if a.toNat < b.toNat then true
                else if b.toNat < a.toNat then false else strLtB as bs) from rfl,
            if_neg hab, if_neg hba] at h
          exact h

/-- Code-point lexicographic order is transitive. -/
theorem strLtB_trans : ∀ {l1 l2 l3 : List Char}, strLtB l1 l2 = true →
    strLtB l2 l3 = true → strLtB l1 l3 = true := by
  intro l1
  induction l1 with
  | nil =>
    intro l2 l3 h1 h2
    cases l2 with
    | nil => cases h1
    | cons b bs =>
      cases l3 with
      | nil => cases h2
      | cons c cs => rfl
  | cons a as ih =>
    intro l2 l3 h1 h2
    cases l2 with
    | nil => cases h1
    | cons b bs =>
      cases l3 with
      | nil => cases h2
      | cons c cs =>
        rw [show strLtB (a :: as) (b :: bs) =
            (if a.toNat < b.toNat then true
              else if b.toNat < a.toNat then false else strLtB as bs) from rfl] at h1
        rw [show strLtB (b :: bs) (c :: cs) =
            (if b.toNat < c.toNat then true
              else if c.toNat < b.toNat then false else strLtB bs cs) from rfl] at h2
        show (if a.toNat < c.toNat then true
          else if c.toNat < a.toNat then false else strLtB as cs) = true
        by_cases hab : a.toNat < b.toNat
        · by_cases hbc : b.toNat < c.toNat
          · rw [if_pos (by omega)]
          · by_cases hcb : c.toNat < b.toNat
            · rw [if_neg hbc, if_pos hcb] at h2
              cases h2
            · have : b.toNat = c.toNat := by omega
              rw [if_pos (by omega)]
        · by_cases hba : b.toNat < a.toNat
          · rw [if_neg hab, if_pos hba] at h1
            cases h1
          · have hab_eq : a.toNat = b.toNat := by omega
            rw [if_neg hab, if_neg hba] at h1
            by_cases hbc : b.toNat < c.toNat
            · rw [if_pos (by omega)]
            · by_cases hcb : c.toNat < b.toNat
              · rw [if_neg hbc, if_pos hcb] at h2
                cases h2
              · rw [if_neg hbc, if_neg hcb] at h2
                rw [if_neg (by omega), if_neg (by omega)]
                exact ih h1 h2

/-- The year order is irreflexive. -/
theorem yearLt_irrefl (a : Option String) : yearLt a a = false := by
  cases a with
  | none => rfl
  | some s =>
    show strLtB s.data s.data = false
    exact strLtB_irrefl s.data

/-- The year order is asymmetric. -/
theorem yearLt_asymm {a b : Option String} (h : yearLt a b = true) :
    yearLt b a = false := by
  cases a with
  | none => simp [yearLt] at h
  | some sa =>
    cases b with
    | none => rfl
    | some sb =>
      show strLtB sb.data sa.data = false
      exact strLtB_asymm h

/-- The year order is transitive. -/
theorem yearLt_trans {a b c : Option String} (h1 : yearLt a b = true)
    (h2 : yearLt b c = true) : yearLt a c = true := by
  cases a with
  | none => simp [yearLt] at h1
  | some sa =>
    cases c with
    | none => rfl
    | some sc =>
      cases b with
      | none => simp [yearLt] at h2
      | some sb =>
        show strLtB sa.data sc.data = true
        exact strLtB_trans h1 h2

/-- Membership through a stable insertion. -/
theorem mem_insertCand {x a : Candidate} : ∀ {l : List Candidate},
    a ∈ insertCand x l ↔ a = x ∨ a ∈ l := by
  intro l
  induction l with
  | nil => simp [insertCand]
  | cons y ys ih =>
    show a ∈ (if yearLt x.year y.year then x :: y :: ys
      else y :: insertCand x ys) ↔ _
    by_cases h : yearLt x.year y.year = true
    · rw [if_pos h]
      simp only [List.mem_cons]
    · rw [if_neg h]
      simp only [List.mem_cons, ih]
      tauto

/-- Stable insertion preserves sortedness by year. -/
theorem pairwise_insertCand {x : Candidate} : ∀ {l : List Candidate},
    l.Pairwise (fun a b => yearLt b.year a.year = false) →
    (insertCand x l).Pairwise (fun a b => yearLt b.year a.year = false) := by
  intro l
  induction l with
  | nil => intro _; simp [insertCand]
  | cons y ys ih =>
    intro hp
    rw [List.pairwise_cons] at hp
    obtain ⟨hy, hys⟩ := hp
    show (if yearLt x.year y.year then x :: y :: ys
      else y :: insertCand x ys).Pairwise _
    by_cases h : yearLt x.year y.year = true
    · rw [if_pos h, List.pairwise_cons]
      constructor
      · intro z hz
        rcases List.mem_cons.mp hz with rfl | hz'
        · exact yearLt_asymm h
        · have hyz := hy z hz'
          by_contra hzx
          rw [Bool.not_eq_false] at hzx
          have htr := yearLt_trans hzx h
          rw [htr] at hyz
          exact Bool.noConfusion hyz
      · rw [List.pairwise_cons]
        exact ⟨hy, hys⟩
    · rw [if_neg h, List.pairwise_cons]
      constructor
      · intro z hz
        rcases mem_insertCand.mp hz with rfl | hz'
        · exact Bool.eq_false_iff.mpr h
        · exact hy z hz'
      · exact ih hys

/-- The sort is a permutation (as a set) and is sorted by year. -/
theorem sortCands_facts (l : List Candidate) :
    (∀ a, a ∈ sortCands l ↔ a ∈ l) ∧
    (sortCands l).Pairwise (fun a b => yearLt b.year a.year = false) := by
  suffices h : ∀ acc : List Candidate,
      acc.Pairwise (fun a b => yearLt b.year a.year = false) →
      (∀ a, a ∈ l.foldl (fun acc x => insertCand x acc) acc ↔ a ∈ acc ∨ a ∈ l) ∧
      (l.foldl (fun acc x => insertCand x acc) acc).Pairwise
        (fun a b => yearLt b.year a.year = false) by
    obtain ⟨h1, h2⟩ := h [] (by simp)
    exact ⟨fun a => by simpa using h1 a, h2⟩
  intro acc
  induction l generalizing acc with
  | nil =>
    intro hacc
    exact ⟨fun a => by simp, hacc⟩
  | cons x xs ih =>
    intro hacc
    obtain ⟨ih1, ih2⟩ := ih (insertCand x acc) (pairwise_insertCand hacc)
    constructor
    · intro a
      rw [List.foldl_cons, ih1 a, mem_insertCand]
      simp only [List.mem_cons]
      tauto
    · rw [List.foldl_cons]
      exact ih2

/-- The head of the sorted candidate list is a minimal element of the
input. -/
theorem sortCands_head_min {l : List Candidate} {c : Candidate}
    {t : List Candidate} (h : sortCands l = c :: t) :
    c ∈ l ∧ ∀ a ∈ l, yearLt a.year c.year = false := by
  obtain ⟨hmem, hpw⟩ := sortCands_facts l
  constructor
  · exact (hmem c).mp (by rw [h]; exact List.mem_cons_self c t)
  · intro a ha
    have ha' : a ∈ sortCands l := (hmem a).mpr ha
    rw [h] at ha' hpw
    rcases List.mem_cons.mp ha' with rfl | hat
    · exact yearLt_irrefl _
    · rw [List.pairwise_cons] at hpw
      exact hpw.1 a hat

/-- C9 counterexample.  With no year hint, the selected record is not the
first candidate of the response: sorting by year string picks the record with
the lexicographically smallest year (here the second record, `"1800"`). -/
theorem claim9_counterexample_not_first :
    process_viaf_response
        (some [{ viafid := some "A", dates := some "1900" },
               { viafid := some "B", dates := some "1800" }]) none =
      Except.ok (some { viaf := some "B", lc := none, name := none, year := some "1800" }) ∧
    ({ viaf := some "B", lc := none, name := none, year := some "1800" } : Candidate) ≠
      { viaf := some "A", lc := none, name := none, year := some "1900" } :=
  ⟨by rfl, by decide⟩

/-- C9 amended.  Whenever the lookup returns a candidate, it is a record kept
by the hint-substring filter (with a truthy hint, a record with a truthy year
is kept iff its year contains the hint as a substring) whose year key is
minimal among the kept records in the lexicographic string order — not a
closest-to-hint record, and with no hint not necessarily the first; a
non-empty response whose kept records mix missing and present years makes
the sort key comparison raise an uncaught `TypeError` instead of returning a
selection; and with no hint, no record is discarded. -/
theorem claim9_amended_year_filter_and_min :
    (∀ response hint c,
        process_viaf_response response hint = Except.ok (some c) →
        ∃ r ∈ response.getD [], keepRecord hint r = true ∧ c = mkCandidate r ∧
          ∀ q ∈ response.getD [], keepRecord hint q = true →
            yearLt (mkCandidate q).year c.year = false) ∧
    (∀ records : List ViafRecord, ∀ hint, records ≠ [] →
        mixedYearKeys ((records.filter (keepRecord hint)).map mkCandidate) = true →
        process_viaf_response (some records) hint = Except.error "TypeError") ∧
    (∀ r : ViafRecord, keepRecord none r = true) := by
  refine ⟨?_, ?_, ?_⟩
  · intro response hint c h
    cases response with
    | none =>
      injection h with h
      exact Option.noConfusion h
    | some records =>
      have hred : process_viaf_response (some records) hint =
          (if records = [] then Except.ok none
            else if mixedYearKeys ((records.filter (keepRecord hint)).map mkCandidate) then
              Except.error "TypeError"
            else match sortCands ((records.filter (keepRecord hint)).map mkCandidate) with
              | [] => Except.ok none
              | c' :: _ => Except.ok (some c')) := rfl
      rw [hred] at h
      by_cases hrec : records = []
      · rw [if_pos hrec] at h
        injection h with h
        exact Option.noConfusion h
      · rw [if_neg hrec] at h
        by_cases hmix :
            mixedYearKeys ((records.filter (keepRecord hint)).map mkCandidate) = true
        · rw [if_pos hmix] at h
          exact Except.noConfusion h
        · rw [if_neg hmix] at h
          cases hs : sortCands ((records.filter (keepRecord hint)).map mkCandidate) with
          | nil =>
            rw [hs] at h
            injection h with h
            exact Option.noConfusion h
          | cons c' t =>
            rw [hs] at h
            injection h with h
            injection h with h
            subst h
            obtain ⟨hcmem, hmin⟩ := sortCands_head_min hs
            rw [List.mem_map] at hcmem
            obtain ⟨r, hrmem, hrc⟩ := hcmem
            rw [List.mem_filter] at hrmem
            refine ⟨r, hrmem.1, hrmem.2, hrc.symm, ?_⟩
            intro q hq hkq
            apply hmin
            rw [List.mem_map]
            exact ⟨q, List.mem_filter.mpr ⟨hq, hkq⟩, rfl⟩
  · intro records hint hne hmix
    have hred : process_viaf_response (some records) hint =
        (if records = [] then Except.ok none
          else if mixedYearKeys ((records.filter (keepRecord hint)).map mkCandidate) then
            Except.error "TypeError"
          else match sortCands ((records.filter (keepRecord hint)).map mkCandidate) with
            | [] => Except.ok none
            | c' :: _ => Except.ok (some c')) := rfl
    rw [hred, if_neg hne, if_pos hmix]
  · intro r
    rfl

/-- Witness for C9 amended: the two-record homogeneous response with no hint
selects the smaller year, and a mixed-year response crashes. -/
theorem claim9_amended_year_filter_and_min_witness :
    process_viaf_response
        (some [{ viafid := some "A", dates := some "1900" },
               { viafid := some "B", dates := some "1800" }]) none =
      Except.ok (some { viaf := some "B", lc := none, name := none, year := some "1800" }) ∧
    (∃ r ∈ (some [({ viafid := some "A", dates := some "1900" } : ViafRecord),
          { viafid := some "B", dates := some "1800" }]).getD [],
        keepRecord none r = true ∧
        ({ viaf := some "B", lc := none, name := none,
            year := some "1800" } : Candidate) = mkCandidate r ∧
        ∀ q ∈ (some [({ viafid := some "A", dates := some "1900" } : ViafRecord),
            { viafid := some "B", dates := some "1800" }]).getD [],
          keepRecord none q = true →
            yearLt (mkCandidate q).year
              (Candidate.year { viaf := some "B", lc := none, name := none, year := some "1800" }) = false) ∧
    ([({ viafid := some "A", dates := some "1900" } : ViafRecord),
      { viafid := some "C" }] ≠ []) ∧
    mixedYearKeys (([({ viafid := some "A", dates := some "1900" } : ViafRecord),
      { viafid := some "C" }].filter (keepRecord none)).map mkCandidate) = true ∧
    process_viaf_response
        (some [{ viafid := some "A", dates := some "1900" },
               { viafid := some "C" }]) none = Except.error "TypeError" :=
  ⟨by rfl,
   claim9_amended_year_filter_and_min.1
     (some [{ viafid := some "A", dates := some "1900" },
            { viafid := some "B", dates := some "1800" }]) none
     { viaf := some "B", lc := none, name := none, year := some "1800" }
     (by rfl),
   by decide,
   by decide,
   claim9_amended_year_filter_and_min.2.1
     [{ viafid := some "A", dates := some "1900" }, { viafid := some "C" }] none
     (by decide) (by decide)⟩

end Oculus
